import Mathlib

/-!
Shallow embedding of the phrase-based stack decoder in `part2.py`.

The decoder searches for the best target-language rendering of a source
sentence `f` (a list of tokens), using a phrase translation table `tm`
and an incremental language model `lm`.  States carry the rightmost
translated index `i`, at most one open `gap` (a skipped source span) and
the language-model context.  Scores are drawn from an abstract linearly
ordered additive commutative monoid `W`, which captures exactly the
operations the decoder performs on its log-probabilities (addition,
comparison, a zero for the root and the fallback entries); the
language-model context type `Ctx` is likewise an opaque parameter, as the
language model is an external collaborator.
-/

set_option maxHeartbeats 1000000

namespace Part2

/-- A candidate translation unit: target text plus its translation-model
log-probability (`models.phrase` in the source). -/
structure Phrase (W : Type) where
  english : String
  logprob : W
  deriving DecidableEq

/-- The phrase table `tm`: a finite map from source spans (token lists) to
candidate phrase lists, modelled as an association list.  The Python dict
is consulted via membership tests and lookups only. -/
abbrev TM (W : Type) : Type := List (List String × List (Phrase W))

/-- Dictionary lookup `tm[span]` / membership `span in tm`. -/
def TM.find {W : Type} : TM W → List String → Option (List (Phrase W))
  | [], _ => none
  | (k, v) :: rest, span => if k = span then some v else TM.find rest span

/-- Well-formedness of the table per the external interface (§6 of the
spec): a span is contained in the table exactly when at least one
candidate phrase exists for it, so no entry maps to an empty list. -/
def TM.WF {W : Type} (t : TM W) : Prop := ∀ e ∈ t, e.2 ≠ ([] : List (Phrase W))

/-- The language model collaborator: an initial context (`lm.begin()`),
an incremental scorer (`lm.score`) and an end-of-sentence scorer
(`lm.end`). -/
structure LM (Ctx W : Type) where
  begin : Ctx
  score : Ctx → String → Ctx × W
  end_ : Ctx → W

/-- Decoding state (`state` namedtuple): rightmost translated index `i`,
optional open gap (half-open index pair), language-model history. -/
structure state (Ctx : Type) where
  i : Nat
  gap : Option (Nat × Nat)
  lm_state : Ctx
  deriving DecidableEq

/-- The initial hypothesis state (`initial_state()`). -/
def initial_state {Ctx W : Type} [LinearOrder W] [AddCommMonoid W] (lm : LM Ctx W) : state Ctx :=
  { i := 0, gap := none, lm_state := lm.begin }

/-- Stack index of a state (`assign_stack`): number of words effectively
translated, i.e. `i` minus the span length of the open gap, if any.
Computed in `Int` exactly as Python's unbounded integers do. -/
def assign_stack {Ctx : Type} (s : state Ctx) : Int :=
  (s.i : Int) - (match s.gap with
    | none => 0
    | some g => (g.2 : Int) - (g.1 : Int))

/-- Python slice `f[a:b]` on a token tuple (indices clamped). -/
def slice (f : List String) (a b : Nat) : List String :=
  (f.take b).drop a

/-- Worker for `pySplit`: scan the characters, accumulating the current
word (reversed); whitespace ends a word, and empty pieces are dropped. -/
def pySplitAux : List Char → List Char → List String
  | [], [] => []
  | [], acc => [String.mk acc.reverse]
  | c :: rest, acc =>
    if c.isWhitespace then
      (match acc with
       | [] => pySplitAux rest []
       | _ => String.mk acc.reverse :: pySplitAux rest [])
    else pySplitAux rest (c :: acc)

/-- Python `str.split()`: split on runs of whitespace, no empty pieces. -/
def pySplit (s : String) : List String :=
  pySplitAux s.data []

/-- Incremental scoring helper (`add_log_probs`): feed each word of the
phrase through the language model, accumulate the word scores on top of
the phrase's translation-model score, and add the end-of-sentence score
when `eos` is set.  Returns the final context and the total increment. -/
def add_log_probs {Ctx W : Type} [LinearOrder W] [AddCommMonoid W] (lm : LM Ctx W) (lm_state : Ctx) (phrase : Phrase W)
    (eos : Bool) : Ctx × W :=
  let r := (pySplit phrase.english).foldl
    (fun acc word => ((lm.score acc.1 word).1, acc.2 + (lm.score acc.1 word).2))
    (lm_state, phrase.logprob)
  (r.1, r.2 + if eos then lm.end_ r.1 else 0)

/-- The extension engine (`extend_state`): all legal transitions from a
state, each a `(new_state, incremental logprob, phrase)` triple.  With no
open gap, case 1 translates the next contiguous span `f[s.i:j]` and case 2
additionally skips that span, translating `f[j:k]` and recording the gap
`(s.i, j)`.  With an open gap, case 3 translates the gap span and closes
the gap.  The case-3 lookup is modelled as returning the entry's candidate
list (empty when the span is absent; the Python code performs the access
unchecked, and reachable states always have the span present). -/
def extend_state {Ctx W : Type} [LinearOrder W] [AddCommMonoid W] (tm : TM W) (lm : LM Ctx W) (s : state Ctx)
    (f : List String) : List (state Ctx × W × Phrase W) :=
  match s.gap with
  | none =>
    (List.range' (s.i + 1) (f.length - s.i)).flatMap (fun j =>
      match TM.find tm (slice f s.i j) with
      | none => []
      | some phrases =>
        (phrases.map (fun p =>
          ({ i := j, gap := none,
             lm_state := (add_log_probs lm s.lm_state p (decide (j = f.length))).1 },
           (add_log_probs lm s.lm_state p (decide (j = f.length))).2, p)))
        ++ (List.range' (j + 1) (f.length - j)).flatMap (fun k =>
          match TM.find tm (slice f j k) with
          | none => []
          | some phrases2 =>
            phrases2.map (fun p =>
              ({ i := k, gap := some (s.i, j),
                 lm_state := (add_log_probs lm s.lm_state p false).1 },
               (add_log_probs lm s.lm_state p false).2, p))))
  | some g =>
    ((TM.find tm (slice f g.1 g.2)).getD []).map (fun p =>
      ({ i := s.i, gap := none,
         lm_state := (add_log_probs lm s.lm_state p (decide (s.i = f.length))).1 },
       (add_log_probs lm s.lm_state p (decide (s.i = f.length))).2, p))

/-- A node of the search graph (`hypothesis` namedtuple): cumulative
logprob, optional predecessor, the phrase labelling the incoming edge
(absent for the root) and the state reached. -/
inductive hypothesis (Ctx W : Type) : Type where
  | mk : W → Option (hypothesis Ctx W) → Option (Phrase W) → state Ctx →
      hypothesis Ctx W

/-- Cumulative log-probability of a hypothesis. -/
def hypothesis.logprob {Ctx W : Type} [LinearOrder W] [AddCommMonoid W] : hypothesis Ctx W → W
  | .mk l _ _ _ => l

/-- Predecessor of a hypothesis (`none` for the root). -/
def hypothesis.predecessor {Ctx W : Type} [LinearOrder W] [AddCommMonoid W] : hypothesis Ctx W → Option (hypothesis Ctx W)
  | .mk _ pred _ _ => pred

/-- Phrase labelling the edge from the predecessor. -/
def hypothesis.phrase {Ctx W : Type} [LinearOrder W] [AddCommMonoid W] : hypothesis Ctx W → Option (Phrase W)
  | .mk _ _ ph _ => ph

/-- State reached by a hypothesis. -/
def hypothesis.state {Ctx W : Type} [LinearOrder W] [AddCommMonoid W] : hypothesis Ctx W → state Ctx
  | .mk _ _ _ st => st

/-- Decidable equality of hypotheses (the Python namedtuples compare
fieldwise). -/
def hypothesis.decEq {Ctx W : Type} [LinearOrder W] [AddCommMonoid W] [DecidableEq Ctx] :
    (a b : hypothesis Ctx W) → Decidable (a = b)
  | .mk l1 none ph1 s1, .mk l2 none ph2 s2 =>
      if h : l1 = l2 ∧ ph1 = ph2 ∧ s1 = s2 then
        isTrue (by obtain ⟨rfl, rfl, rfl⟩ := h; rfl)
      else
        isFalse (by
          intro he; apply h
          injection he with h1 h2 h3 h4; exact ⟨h1, h3, h4⟩)
  | .mk _ none _ _, .mk _ (some _) _ _ =>
      isFalse (by
        intro he; injection he with h1 h2 h3 h4; exact Option.noConfusion h2)
  | .mk _ (some _) _ _, .mk _ none _ _ =>
      isFalse (by
        intro he; injection he with h1 h2 h3 h4; exact Option.noConfusion h2)
  | .mk l1 (some a) ph1 s1, .mk l2 (some b) ph2 s2 =>
      match hypothesis.decEq a b with
      | isTrue hab =>
          if h : l1 = l2 ∧ ph1 = ph2 ∧ s1 = s2 then
            isTrue (by obtain ⟨rfl, rfl, rfl⟩ := h; rw [hab])
          else
            isFalse (by
              intro he; apply h
              injection he with h1 h2 h3 h4; exact ⟨h1, h3, h4⟩)
      | isFalse hab =>
          isFalse (by
            intro he; apply hab
            injection he with h1 h2 h3 h4
            injection h2)

instance {Ctx W : Type} [LinearOrder W] [AddCommMonoid W] [DecidableEq Ctx] : DecidableEq (hypothesis Ctx W) :=
  hypothesis.decEq

/-- The root hypothesis seeded into stack 0: logprob `0.0`, no
predecessor, no phrase, the initial state. -/
def rootHyp {Ctx W : Type} [LinearOrder W] [AddCommMonoid W] (lm : LM Ctx W) : hypothesis Ctx W :=
  .mk 0 none none (initial_state lm)

/-- One stack: a dict from states to the best hypothesis reaching each,
modelled as a duplicate-free association list in insertion order. -/
abbrev Stack (Ctx W : Type) : Type := List (state Ctx × hypothesis Ctx W)

/-- Dictionary lookup in a stack. -/
def dictFind {Ctx W : Type} [LinearOrder W] [AddCommMonoid W] [DecidableEq Ctx] (stk : Stack Ctx W) (k : state Ctx) :
    Option (hypothesis Ctx W) :=
  match stk with
  | [] => none
  | (k', v) :: rest => if k' = k then some v else dictFind rest k

/-- Dictionary assignment `stk[k] = v`: replace in place, append if absent. -/
def dictSet {Ctx W : Type} [LinearOrder W] [AddCommMonoid W] [DecidableEq Ctx] (stk : Stack Ctx W) (k : state Ctx)
    (v : hypothesis Ctx W) : Stack Ctx W :=
  match stk with
  | [] => [(k, v)]
  | (k', v') :: rest => if k' = k then (k, v) :: rest else (k', v') :: dictSet rest k v

/-- Recombination insert (lines 116-117 of the source): store the new
hypothesis under `ns` unless an entry with at least as high a logprob is
already present. -/
def hypInsert {Ctx W : Type} [LinearOrder W] [AddCommMonoid W] [DecidableEq Ctx] (stk : Stack Ctx W) (ns : state Ctx)
    (h : hypothesis Ctx W) : Stack Ctx W :=
  match dictFind stk ns with
  | none => dictSet stk ns h
  | some old => if old.logprob < h.logprob then dictSet stk ns h else stk

/-- List update at an index, identity when out of range. -/
def modifyAt {α : Type} (l : List α) (i : Nat) (g : α → α) : List α :=
  match l, i with
  | [], _ => []
  | x :: rest, 0 => g x :: rest
  | x :: rest, n + 1 => x :: modifyAt rest n g

/-- Python list-index normalisation: negative indices count from the end. -/
def pyIdx (n : Nat) (j : Int) : Nat :=
  (if j < 0 then j + (n : Int) else j).toNat

/-- Insert a freshly built hypothesis into the stack array at the index
`assign_stack` gives its state (line 115 of the source). -/
def stacksInsert {Ctx W : Type} [LinearOrder W] [AddCommMonoid W] [DecidableEq Ctx] (stks : List (Stack Ctx W))
    (ns : state Ctx) (h : hypothesis Ctx W) : List (Stack Ctx W) :=
  modifyAt stks (pyIdx stks.length (assign_stack ns)) (fun stk => hypInsert stk ns h)

/-- Stable insertion of an element into a sorted list: used to model
Python's stable `sorted`. -/
def insSorted {α : Type} (le : α → α → Bool) (x : α) : List α → List α
  | [] => [x]
  | y :: ys => if le x y then x :: y :: ys else y :: insSorted le x ys

/-- A stable sort (insertion sort).  Python's `sorted` is stable, and the
output of a stable sort is uniquely determined by the comparator and the
input order, so this models `sorted` exactly. -/
def pySorted {α : Type} (le : α → α → Bool) : List α → List α
  | [] => []
  | x :: xs => insSorted le x (pySorted le xs)

theorem perm_insSorted {α : Type} (le : α → α → Bool) (x : α) :
    ∀ l : List α, (insSorted le x l).Perm (x :: l)
  | [] => List.Perm.refl _
  | y :: ys => by
    rw [insSorted]
    by_cases h : le x y
    · rw [if_pos h]
    · rw [if_neg h]
      exact ((perm_insSorted le x ys).cons y).trans (List.Perm.swap x y ys)

theorem perm_pySorted {α : Type} (le : α → α → Bool) :
    ∀ l : List α, (pySorted le l).Perm l
  | [] => List.Perm.refl _
  | x :: xs => by
    rw [pySorted]
    exact (perm_insSorted le x _).trans ((perm_pySorted le xs).cons x)

theorem pairwise_insSorted {α : Type} (le : α → α → Bool)
    (htrans : ∀ a b c, le a b = true → le b c = true → le a c = true)
    (htot : ∀ a b, le a b = true ∨ le b a = true) (x : α) (l : List α)
    (hl : l.Pairwise (fun a b => le a b = true)) :
    (insSorted le x l).Pairwise (fun a b => le a b = true) := by
  induction l with
  | nil => simp [insSorted]
  | cons y ys ih =>
    rw [insSorted]
    rcases List.pairwise_cons.1 hl with ⟨hy, hys⟩
    by_cases hxy : le x y = true
    · rw [if_pos hxy]
      refine List.pairwise_cons.2 ⟨?_, hl⟩
      intro b hb
      rcases List.mem_cons.1 hb with rfl | hb2
      · exact hxy
      · exact htrans _ _ _ hxy (hy b hb2)
    · rw [if_neg hxy]
      refine List.pairwise_cons.2 ⟨?_, ih hys⟩
      intro b hb
      have hb2 := (perm_insSorted le x ys).mem_iff.1 hb
      rcases List.mem_cons.1 hb2 with rfl | hb3
      · rcases htot y b with h | h
        · exact h
        · exact absurd h hxy
      · exact hy b hb3

theorem pairwise_pySorted {α : Type} (le : α → α → Bool)
    (htrans : ∀ a b c, le a b = true → le b c = true → le a c = true)
    (htot : ∀ a b, le a b = true ∨ le b a = true) :
    ∀ l : List α, (pySorted le l).Pairwise (fun a b => le a b = true)
  | [] => List.Pairwise.nil
  | x :: xs => by
    rw [pySorted]
    exact pairwise_insSorted le htrans htot x _ (pairwise_pySorted le htrans htot xs)

/-- Comparison used to sort a stack's hypotheses by descending cumulative
logprob (`key=lambda h: -h.logprob`). -/
def byDescLogprob {Ctx W : Type} [LinearOrder W] [AddCommMonoid W] (a b : hypothesis Ctx W) : Bool :=
  decide (b.logprob ≤ a.logprob)

/-- Pruning (line 109): the stack's hypotheses sorted by descending
cumulative logprob, truncated to the beam size `opts.s`. -/
def pruneStack {Ctx W : Type} [LinearOrder W] [AddCommMonoid W] (beam : Nat)
    (stk : Stack Ctx W) : List (hypothesis Ctx W) :=
  (pySorted byDescLogprob (stk.map Prod.snd)).take beam

/-- Expand one hypothesis: push every extension of its state into the
stack array, with cumulative logprob `h.logprob + incremental`. -/
def expandHyp {Ctx W : Type} [LinearOrder W] [AddCommMonoid W] [DecidableEq Ctx] (tm : TM W) (lm : LM Ctx W)
    (f : List String) (stks : List (Stack Ctx W)) (h : hypothesis Ctx W) :
    List (Stack Ctx W) :=
  (extend_state tm lm h.state f).foldl
    (fun acc t => stacksInsert acc t.1 (.mk (h.logprob + t.2.1) (some h) (some t.2.2) t.1))
    stks

/-- Process stack `i`: prune it, then expand each surviving hypothesis. -/
def stepStack {Ctx W : Type} [LinearOrder W] [AddCommMonoid W] [DecidableEq Ctx] (tm : TM W) (lm : LM Ctx W) (beam : Nat)
    (f : List String) (stks : List (Stack Ctx W)) (i : Nat) : List (Stack Ctx W) :=
  (pruneStack beam (stks.getD i [])).foldl (expandHyp tm lm f) stks

/-- The initial stack array: one empty stack per source word plus one
more, with the root hypothesis seeded into stack 0 (lines 106-107). -/
def initStacks {Ctx W : Type} [LinearOrder W] [AddCommMonoid W] (lm : LM Ctx W) (f : List String) : List (Stack Ctx W) :=
  (((List.replicate f.length ([] : Stack Ctx W)) ++ [[]]).set 0
    [(initial_state lm, rootHyp lm)])

/-- The decoder driver loop (lines 108-117): process every stack except
the last, in index order. -/
def decode {Ctx W : Type} [LinearOrder W] [AddCommMonoid W] [DecidableEq Ctx] (tm : TM W) (lm : LM Ctx W) (beam : Nat)
    (f : List String) : List (Stack Ctx W) :=
  (List.range ((initStacks lm f).length - 1)).foldl
    (stepStack tm lm beam f) (initStacks lm f)

/-- Python `max(..., key=lambda h: h.logprob)`: first maximum in
iteration order, `none` on an empty collection (Python raises there). -/
def pyMax {Ctx W : Type} [LinearOrder W] [AddCommMonoid W] : List (hypothesis Ctx W) → Option (hypothesis Ctx W)
  | [] => none
  | h :: t => some (t.foldl (fun best x => if best.logprob < x.logprob then x else best) h)

/-- Winner selection (line 118): best hypothesis of the final stack. -/
def winner {Ctx W : Type} [LinearOrder W] [AddCommMonoid W] (stks : List (Stack Ctx W)) : Option (hypothesis Ctx W) :=
  pyMax (((stks.getLast?).getD []).map Prod.snd)

/-- Backtracking reconstruction (`extract_english`): concatenate the edge
phrases from the root to the hypothesis, each followed by a space. -/
def extract_english {Ctx W : Type} [LinearOrder W] [AddCommMonoid W] : hypothesis Ctx W → String
  | .mk _ none _ _ => ""
  | .mk _ (some pred) ph _ =>
      extract_english pred ++ ((ph.map Phrase.english).getD "") ++ " "

/-- The out-of-vocabulary fallback (lines 24-26): every input token with
no single-token table entry gets a synthetic identity entry with
logprob `0.0`. -/
def addFallbacks {W : Type} [LinearOrder W] [AddCommMonoid W] (tm : TM W)
    (french : List (List String)) : TM W :=
  (french.flatMap id).foldl
    (fun t w => if (TM.find t [w]).isSome then t else ([w], [⟨w, 0⟩]) :: t) tm

/-! ### Characterisation of the extension engine -/

/-- Shape of a Case A (contiguous, no-gap) transition out of `s`. -/
def caseA_trans {Ctx W : Type} [LinearOrder W] [AddCommMonoid W] (tm : TM W) (lm : LM Ctx W) (s : state Ctx)
    (f : List String) (t : state Ctx × W × Phrase W) : Prop :=
  ∃ j ps, s.i < j ∧ j ≤ f.length ∧ TM.find tm (slice f s.i j) = some ps ∧
    t.2.2 ∈ ps ∧
    t.1 = { i := j, gap := none,
            lm_state := (add_log_probs lm s.lm_state t.2.2 (decide (j = f.length))).1 } ∧
    t.2.1 = (add_log_probs lm s.lm_state t.2.2 (decide (j = f.length))).2

/-- Shape of a Case B (gap-opening) transition out of `s`. -/
def caseB_trans {Ctx W : Type} [LinearOrder W] [AddCommMonoid W] (tm : TM W) (lm : LM Ctx W) (s : state Ctx)
    (f : List String) (t : state Ctx × W × Phrase W) : Prop :=
  ∃ j k ps, s.i < j ∧ j < k ∧ k ≤ f.length ∧
    (TM.find tm (slice f s.i j)).isSome ∧
    TM.find tm (slice f j k) = some ps ∧ t.2.2 ∈ ps ∧
    t.1 = { i := k, gap := some (s.i, j),
            lm_state := (add_log_probs lm s.lm_state t.2.2 false).1 } ∧
    t.2.1 = (add_log_probs lm s.lm_state t.2.2 false).2

/-- Shape of a Case C (gap-filling) transition out of `s` with gap `g`. -/
def caseC_trans {Ctx W : Type} [LinearOrder W] [AddCommMonoid W] (tm : TM W) (lm : LM Ctx W) (s : state Ctx)
    (f : List String) (g : Nat × Nat) (t : state Ctx × W × Phrase W) : Prop :=
  t.2.2 ∈ (TM.find tm (slice f g.1 g.2)).getD [] ∧
  t.1 = { i := s.i, gap := none,
          lm_state := (add_log_probs lm s.lm_state t.2.2 (decide (s.i = f.length))).1 } ∧
  t.2.1 = (add_log_probs lm s.lm_state t.2.2 (decide (s.i = f.length))).2

theorem range'_window (a L j : Nat) :
    j ∈ List.range' (a + 1) (L - a) ↔ a < j ∧ j ≤ L := by
  rw [List.mem_range'_1]; omega

theorem mem_extend_nogap {Ctx W : Type} [LinearOrder W] [AddCommMonoid W] (tm : TM W) (lm : LM Ctx W) (s : state Ctx)
    (f : List String) (hg : s.gap = none) (t : state Ctx × W × Phrase W) :
    t ∈ extend_state tm lm s f ↔
      caseA_trans tm lm s f t ∨ caseB_trans tm lm s f t := by
  obtain ⟨ns, lp, p⟩ := t
  unfold extend_state
  rw [hg]
  simp only [List.mem_flatMap]
  constructor
  · rintro ⟨j, hj, hmem⟩
    rw [range'_window] at hj
    cases hfind : TM.find tm (slice f s.i j) with
    | none => rw [hfind] at hmem; simp at hmem
    | some ps =>
      rw [hfind] at hmem
      rcases List.mem_append.1 hmem with hA | hB
      · obtain ⟨p', hp', he⟩ := List.mem_map.1 hA
        cases he
        exact Or.inl ⟨j, ps, hj.1, hj.2, hfind, hp', rfl, rfl⟩
      · obtain ⟨k, hk, hmem2⟩ := List.mem_flatMap.1 hB
        rw [range'_window] at hk
        cases hfind2 : TM.find tm (slice f j k) with
        | none => rw [hfind2] at hmem2; simp at hmem2
        | some ps2 =>
          rw [hfind2] at hmem2
          obtain ⟨p', hp', he⟩ := List.mem_map.1 hmem2
          cases he
          exact Or.inr ⟨j, k, ps2, hj.1, hk.1, hk.2,
            by rw [hfind]; rfl, hfind2, hp', rfl, rfl⟩
  · rintro (⟨j, ps, hij, hjL, hfind, hp, hns, hlp⟩ |
            ⟨j, k, ps, hij, hjk, hkL, hsome, hfind2, hp, hns, hlp⟩) <;>
      dsimp only at hp hns hlp
    · refine ⟨j, (range'_window _ _ _).2 ⟨hij, hjL⟩, ?_⟩
      rw [hfind]
      refine List.mem_append.2 (Or.inl (List.mem_map.2 ⟨p, hp, ?_⟩))
      subst hns; subst hlp; rfl
    · refine ⟨j, (range'_window _ _ _).2 ⟨hij, Nat.le_of_lt (Nat.lt_of_lt_of_le hjk hkL)⟩, ?_⟩
      obtain ⟨ps1, hfind1⟩ := Option.isSome_iff_exists.1 hsome
      rw [hfind1]
      refine List.mem_append.2 (Or.inr (List.mem_flatMap.2
        ⟨k, (range'_window _ _ _).2 ⟨hjk, hkL⟩, ?_⟩))
      rw [hfind2]
      refine List.mem_map.2 ⟨p, hp, ?_⟩
      subst hns; subst hlp; rfl

theorem mem_extend_gap {Ctx W : Type} [LinearOrder W] [AddCommMonoid W] (tm : TM W) (lm : LM Ctx W) (s : state Ctx)
    (f : List String) (g : Nat × Nat) (hg : s.gap = some g)
    (t : state Ctx × W × Phrase W) :
    t ∈ extend_state tm lm s f ↔ caseC_trans tm lm s f g t := by
  obtain ⟨ns, lp, p⟩ := t
  unfold extend_state
  rw [hg]
  simp only [caseC_trans]
  constructor
  · intro hmem
    obtain ⟨p', hp', he⟩ := List.mem_map.1 hmem
    cases he
    exact ⟨hp', rfl, rfl⟩
  · rintro ⟨hp, hns, hlp⟩
    refine List.mem_map.2 ⟨p, hp, ?_⟩
    subst hns; subst hlp; rfl

/-! ### Per-transition facts used by the driver invariants -/

theorem assign_stack_nogap {Ctx : Type} (s : state Ctx) (h : s.gap = none) :
    assign_stack s = (s.i : Int) := by
  simp [assign_stack, h]

theorem assign_stack_gap {Ctx : Type} (s : state Ctx) (g : Nat × Nat)
    (h : s.gap = some g) :
    assign_stack s = (s.i : Int) - ((g.2 : Int) - (g.1 : Int)) := by
  simp [assign_stack, h]

/-- Progress measure on states: strictly increases along every transition
of the extension engine, which makes the search graph acyclic. -/
def gmeasure {Ctx : Type} (s : state Ctx) : Nat :=
  2 * s.i + (match s.gap with | none => 1 | some _ => 0)

theorem gmeasure_nogap {Ctx : Type} (s : state Ctx) (h : s.gap = none) :
    gmeasure s = 2 * s.i + 1 := by
  simp [gmeasure, h]

theorem gmeasure_gap {Ctx : Type} (s : state Ctx) (g : Nat × Nat) (h : s.gap = some g) :
    gmeasure s = 2 * s.i := by
  simp [gmeasure, h]

/-- Coarse shape of every transition produced by the extension engine. -/
theorem extend_shape {Ctx W : Type} [LinearOrder W] [AddCommMonoid W] (tm : TM W) (lm : LM Ctx W) (s : state Ctx)
    (f : List String) (t : state Ctx × W × Phrase W)
    (ht : t ∈ extend_state tm lm s f) :
    (s.gap = none ∧
      ((t.1.gap = none ∧ s.i < t.1.i ∧ t.1.i ≤ f.length) ∨
       (∃ j, t.1.gap = some (s.i, j) ∧ s.i < j ∧ j < t.1.i ∧ t.1.i ≤ f.length ∧
         (TM.find tm (slice f s.i j)).isSome))) ∨
    (∃ g, s.gap = some g ∧ t.1.i = s.i ∧ t.1.gap = none) := by
  cases hsg : s.gap with
  | none =>
    rcases (mem_extend_nogap tm lm s f hsg t).1 ht with
      ⟨j, ps, hij, hjL, hfind, hp, hns, hlp⟩ |
      ⟨j, k, ps, hij, hjk, hkL, hsome, hfind2, hp, hns, hlp⟩
    · exact Or.inl ⟨rfl, Or.inl ⟨by rw [hns], by rw [hns]; exact hij, by rw [hns]; exact hjL⟩⟩
    · exact Or.inl ⟨rfl, Or.inr ⟨j, by rw [hns], hij, by rw [hns]; exact hjk,
        by rw [hns]; exact hkL, hsome⟩⟩
  | some g =>
    obtain ⟨hp, hns, hlp⟩ := (mem_extend_gap tm lm s f g hsg t).1 ht
    exact Or.inr ⟨g, rfl, by rw [hns], by rw [hns]⟩

theorem extend_i_mono {Ctx W : Type} [LinearOrder W] [AddCommMonoid W] {tm : TM W} {lm : LM Ctx W} {s : state Ctx}
    {f : List String} {t : state Ctx × W × Phrase W}
    (ht : t ∈ extend_state tm lm s f) : s.i ≤ t.1.i := by
  rcases extend_shape tm lm s f t ht with ⟨_, ⟨_, h, _⟩ | ⟨j, _, _, hj, hk, _⟩⟩ | ⟨g, _, hi, _⟩
  · omega
  · omega
  · omega

theorem extend_i_eq_cases {Ctx W : Type} [LinearOrder W] [AddCommMonoid W] {tm : TM W} {lm : LM Ctx W} {s : state Ctx}
    {f : List String} {t : state Ctx × W × Phrase W}
    (ht : t ∈ extend_state tm lm s f) (heq : t.1.i = s.i) :
    s.gap ≠ none ∧ t.1.gap = none := by
  rcases extend_shape tm lm s f t ht with ⟨hsg, ⟨_, h, _⟩ | ⟨j, _, _, hj, hk, _⟩⟩ | ⟨g, hsg, hi, hg⟩
  · omega
  · omega
  · exact ⟨by rw [hsg]; exact fun h => Option.noConfusion h, hg⟩

theorem extend_gmeasure_lt {Ctx W : Type} [LinearOrder W] [AddCommMonoid W] {tm : TM W} {lm : LM Ctx W} {s : state Ctx}
    {f : List String} {t : state Ctx × W × Phrase W}
    (ht : t ∈ extend_state tm lm s f) : gmeasure s < gmeasure t.1 := by
  rcases extend_shape tm lm s f t ht with
    ⟨hsg, ⟨htg, h1, h2⟩ | ⟨j, htg, h1, h2, h3, _⟩⟩ | ⟨g, hsg, hi, htg⟩
  · rw [gmeasure_nogap s hsg, gmeasure_nogap t.1 htg]; omega
  · rw [gmeasure_nogap s hsg, gmeasure_gap t.1 _ htg]; omega
  · rw [gmeasure_gap s g hsg, gmeasure_nogap t.1 htg]; omega

theorem extend_i_upper {Ctx W : Type} [LinearOrder W] [AddCommMonoid W] {tm : TM W} {lm : LM Ctx W} {s : state Ctx}
    {f : List String} {t : state Ctx × W × Phrase W}
    (ht : t ∈ extend_state tm lm s f) (hs : s.i ≤ f.length) : t.1.i ≤ f.length := by
  rcases extend_shape tm lm s f t ht with ⟨_, ⟨_, _, h⟩ | ⟨j, _, _, _, _, _⟩⟩ | ⟨g, _, hi, _⟩
  · omega
  · omega
  · omega

theorem extend_gap_targets {Ctx W : Type} [LinearOrder W] [AddCommMonoid W] {tm : TM W} {lm : LM Ctx W} {s : state Ctx}
    {f : List String} {t : state Ctx × W × Phrase W}
    (ht : t ∈ extend_state tm lm s f) (g' : Nat × Nat) (hg' : t.1.gap = some g') :
    g'.1 < g'.2 ∧ g'.2 ≤ t.1.i ∧ (TM.find tm (slice f g'.1 g'.2)).isSome := by
  rcases extend_shape tm lm s f t ht with
    ⟨_, ⟨htg, _, _⟩ | ⟨j, htg, h1, h2, h3, h4⟩⟩ | ⟨g, _, _, htg⟩
  · rw [htg] at hg'; exact Option.noConfusion hg'
  · rw [htg] at hg'
    obtain rfl := Option.some.inj hg'
    exact ⟨h1, Nat.le_of_lt h2, h4⟩
  · rw [htg] at hg'; exact Option.noConfusion hg'

theorem extend_assign_nonneg {Ctx W : Type} [LinearOrder W] [AddCommMonoid W] {tm : TM W} {lm : LM Ctx W} {s : state Ctx}
    {f : List String} {t : state Ctx × W × Phrase W}
    (ht : t ∈ extend_state tm lm s f) : 0 ≤ assign_stack t.1 := by
  cases htg : t.1.gap with
  | none => rw [assign_stack_nogap t.1 htg]; omega
  | some g' =>
    obtain ⟨h1, h2, _⟩ := extend_gap_targets ht g' htg
    rw [assign_stack_gap t.1 g' htg]; omega

theorem extend_assign_le {Ctx W : Type} [LinearOrder W] [AddCommMonoid W] {tm : TM W} {lm : LM Ctx W} {s : state Ctx}
    {f : List String} {t : state Ctx × W × Phrase W}
    (ht : t ∈ extend_state tm lm s f) (hs : s.i ≤ f.length) :
    assign_stack t.1 ≤ (f.length : Int) := by
  have hiu := extend_i_upper ht hs
  cases htg : t.1.gap with
  | none => rw [assign_stack_nogap t.1 htg]; omega
  | some g' =>
    obtain ⟨h1, h2, _⟩ := extend_gap_targets ht g' htg
    rw [assign_stack_gap t.1 g' htg]; omega

theorem extend_assign_lt_of_gap {Ctx W : Type} [LinearOrder W] [AddCommMonoid W] {tm : TM W} {lm : LM Ctx W} {s : state Ctx}
    {f : List String} {t : state Ctx × W × Phrase W}
    (ht : t ∈ extend_state tm lm s f) (g' : Nat × Nat) (hg' : t.1.gap = some g') :
    assign_stack t.1 < (f.length : Int) := by
  rcases extend_shape tm lm s f t ht with
    ⟨_, ⟨htg, _, _⟩ | ⟨j, htg, h1, h2, h3, _⟩⟩ | ⟨g, _, _, htg⟩
  · rw [htg] at hg'; exact Option.noConfusion hg'
  · rw [assign_stack_gap t.1 _ htg]; push_cast; omega
  · rw [htg] at hg'; exact Option.noConfusion hg'

theorem extend_assign_gt {Ctx W : Type} [LinearOrder W] [AddCommMonoid W] {tm : TM W} {lm : LM Ctx W} {s : state Ctx}
    {f : List String} {t : state Ctx × W × Phrase W}
    (ht : t ∈ extend_state tm lm s f)
    (hgap : ∀ g, s.gap = some g → g.1 < g.2) :
    assign_stack s < assign_stack t.1 := by
  rcases extend_shape tm lm s f t ht with
    ⟨hsg, ⟨htg, h1, h2⟩ | ⟨j, htg, h1, h2, h3, _⟩⟩ | ⟨g, hsg, hi, htg⟩
  · rw [assign_stack_nogap s hsg, assign_stack_nogap t.1 htg]; omega
  · rw [assign_stack_nogap s hsg, assign_stack_gap t.1 _ htg]; push_cast; omega
  · have hg := hgap g hsg
    rw [assign_stack_gap s g hsg, assign_stack_nogap t.1 htg]; omega

/-- A successful table lookup returns an actual entry of the table. -/
theorem TM.find_mem {t : TM W} {span : List String} {ps : List (Phrase W)}
    (h : TM.find t span = some ps) : (span, ps) ∈ t := by
  induction t with
  | nil => exact Option.noConfusion h
  | cons e rest ih =>
    obtain ⟨k, v⟩ := e
    by_cases hk : k = span
    · subst hk
      rw [TM.find, if_pos rfl] at h
      obtain rfl := Option.some.inj h
      exact List.mem_cons_self _ _
    · rw [TM.find, if_neg hk] at h
      exact List.mem_cons_of_mem _ (ih h)

/-- A single-token slice of the sentence. -/
theorem slice_singleton :
    ∀ (f : List String) (i : Nat) (hi : i < f.length),
      slice f i (i + 1) = [f.get ⟨i, hi⟩]
  | _ :: _, 0, _ => by simp [slice]
  | x :: rest, n + 1, hi => by
    have h := slice_singleton rest n (by simpa using Nat.lt_of_succ_lt_succ hi)
    simpa [slice] using h

/-! ### Stack-array infrastructure lemmas -/

theorem dictSet_mem {Ctx W : Type} [LinearOrder W] [AddCommMonoid W] [DecidableEq Ctx] {stk : Stack Ctx W} {k : state Ctx}
    {v : hypothesis Ctx W} {e : state Ctx × hypothesis Ctx W}
    (h : e ∈ dictSet stk k v) : e ∈ stk ∨ e = (k, v) := by
  induction stk with
  | nil =>
    rw [dictSet] at h
    rcases List.mem_singleton.1 h with rfl
    exact Or.inr rfl
  | cons hd rest ih =>
    obtain ⟨k', v'⟩ := hd
    rw [dictSet] at h
    by_cases hk : k' = k
    · rw [if_pos hk] at h
      rcases List.mem_cons.1 h with rfl | hmem
      · exact Or.inr rfl
      · exact Or.inl (List.mem_cons_of_mem _ hmem)
    · rw [if_neg hk] at h
      rcases List.mem_cons.1 h with rfl | hmem
      · exact Or.inl (List.mem_cons_self _ _)
      · rcases ih hmem with h1 | h2
        · exact Or.inl (List.mem_cons_of_mem _ h1)
        · exact Or.inr h2

theorem dictSet_ne_nil {Ctx W : Type} [LinearOrder W] [AddCommMonoid W] [DecidableEq Ctx] (stk : Stack Ctx W) (k : state Ctx)
    (v : hypothesis Ctx W) : dictSet stk k v ≠ [] := by
  cases stk with
  | nil => rw [dictSet]; exact List.cons_ne_nil _ _
  | cons hd rest =>
    obtain ⟨k', v'⟩ := hd
    rw [dictSet]
    by_cases hk : k' = k
    · rw [if_pos hk]; exact List.cons_ne_nil _ _
    · rw [if_neg hk]; exact List.cons_ne_nil _ _

theorem hypInsert_mem {Ctx W : Type} [LinearOrder W] [AddCommMonoid W] [DecidableEq Ctx] {stk : Stack Ctx W} {ns : state Ctx}
    {h : hypothesis Ctx W} {e : state Ctx × hypothesis Ctx W}
    (he : e ∈ hypInsert stk ns h) : e ∈ stk ∨ e = (ns, h) := by
  rw [hypInsert] at he
  cases hf : dictFind stk ns with
  | none => rw [hf] at he; exact dictSet_mem he
  | some old =>
    rw [hf] at he
    dsimp only at he
    by_cases hlt : old.logprob < h.logprob
    · rw [if_pos hlt] at he; exact dictSet_mem he
    · rw [if_neg hlt] at he; exact Or.inl he

theorem hypInsert_ne_nil {Ctx W : Type} [LinearOrder W] [AddCommMonoid W] [DecidableEq Ctx] (stk : Stack Ctx W) (ns : state Ctx)
    (h : hypothesis Ctx W) : hypInsert stk ns h ≠ [] := by
  rw [hypInsert]
  cases hf : dictFind stk ns with
  | none => exact dictSet_ne_nil _ _ _
  | some old =>
    dsimp only
    by_cases hlt : old.logprob < h.logprob
    · rw [if_pos hlt]; exact dictSet_ne_nil _ _ _
    · rw [if_neg hlt]
      intro hnil
      subst hnil
      rw [dictFind] at hf
      exact Option.noConfusion hf

theorem length_modifyAt {α : Type} (l : List α) (i : Nat) (g : α → α) :
    (modifyAt l i g).length = l.length := by
  induction l generalizing i with
  | nil => rfl
  | cons x rest ih =>
    cases i with
    | zero => rfl
    | succ n => simpa [modifyAt] using ih n

theorem getD_modifyAt_self {α : Type} (l : List α) (i : Nat) (g : α → α) (d : α)
    (hi : i < l.length) : (modifyAt l i g).getD i d = g (l.getD i d) := by
  induction l generalizing i with
  | nil => exact absurd hi (by simp)
  | cons x rest ih =>
    cases i with
    | zero => rfl
    | succ n => simpa [modifyAt] using ih n (by simpa using Nat.lt_of_succ_lt_succ hi)

theorem getD_modifyAt_ne {α : Type} (l : List α) (i j : Nat) (g : α → α) (d : α)
    (hij : j ≠ i) : (modifyAt l i g).getD j d = l.getD j d := by
  induction l generalizing i j with
  | nil => rfl
  | cons x rest ih =>
    cases i with
    | zero =>
      cases j with
      | zero => exact absurd rfl hij
      | succ m => rfl
    | succ n =>
      cases j with
      | zero => rfl
      | succ m => simpa [modifyAt] using ih n m (fun h => hij (by rw [h]))

theorem modifyAt_oob {α : Type} (l : List α) (i : Nat) (g : α → α)
    (hi : l.length ≤ i) : modifyAt l i g = l := by
  induction l generalizing i with
  | nil => rfl
  | cons x rest ih =>
    cases i with
    | zero => exact absurd hi (by simp)
    | succ n => simpa [modifyAt] using ih n (by simpa using Nat.le_of_succ_le_succ hi)

theorem length_stacksInsert {Ctx W : Type} [LinearOrder W] [AddCommMonoid W] [DecidableEq Ctx] (stks : List (Stack Ctx W))
    (ns : state Ctx) (h : hypothesis Ctx W) :
    (stacksInsert stks ns h).length = stks.length := by
  rw [stacksInsert]; exact length_modifyAt _ _ _

theorem stacksInsert_mem {Ctx W : Type} [LinearOrder W] [AddCommMonoid W] [DecidableEq Ctx] {stks : List (Stack Ctx W)}
    {ns : state Ctx} {h : hypothesis Ctx W} {idx : Nat} {e : state Ctx × hypothesis Ctx W}
    (he : e ∈ (stacksInsert stks ns h).getD idx []) :
    e ∈ stks.getD idx [] ∨
      (e = (ns, h) ∧ idx = pyIdx stks.length (assign_stack ns)) := by
  rw [stacksInsert] at he
  by_cases hidx : idx = pyIdx stks.length (assign_stack ns)
  · rw [← hidx] at he
    by_cases hlt : idx < stks.length
    · rw [getD_modifyAt_self _ _ _ _ hlt] at he
      rcases hypInsert_mem he with h1 | h2
      · exact Or.inl h1
      · exact Or.inr ⟨h2, hidx⟩
    · rw [modifyAt_oob _ _ _ (Nat.le_of_not_lt hlt)] at he
      exact Or.inl he
  · rw [getD_modifyAt_ne _ _ _ _ _ hidx] at he
    exact Or.inl he

theorem stacksInsert_nonempty_pres {Ctx W : Type} [LinearOrder W] [AddCommMonoid W] [DecidableEq Ctx]
    {stks : List (Stack Ctx W)} (ns : state Ctx) (h : hypothesis Ctx W) (idx : Nat)
    (hne : stks.getD idx [] ≠ []) : (stacksInsert stks ns h).getD idx [] ≠ [] := by
  rw [stacksInsert]
  by_cases hidx : idx = pyIdx stks.length (assign_stack ns)
  · rw [← hidx]
    by_cases hlt : idx < stks.length
    · rw [getD_modifyAt_self _ _ _ _ hlt]
      exact hypInsert_ne_nil _ _ _
    · rw [modifyAt_oob _ _ _ (Nat.le_of_not_lt hlt)]
      exact hne
  · rw [getD_modifyAt_ne _ _ _ _ _ hidx]
    exact hne

theorem stacksInsert_makes_nonempty {Ctx W : Type} [LinearOrder W] [AddCommMonoid W] [DecidableEq Ctx]
    (stks : List (Stack Ctx W)) (ns : state Ctx) (h : hypothesis Ctx W)
    (hlt : pyIdx stks.length (assign_stack ns) < stks.length) :
    (stacksInsert stks ns h).getD (pyIdx stks.length (assign_stack ns)) [] ≠ [] := by
  rw [stacksInsert, getD_modifyAt_self _ _ _ _ hlt]
  exact hypInsert_ne_nil _ _ _

/-! ### Reachability and driver invariants -/

/-- Well-formed hypotheses: the root, and any hypothesis built from a
well-formed predecessor by one transition of the extension engine, with
the cumulative logprob updated by the transition's increment.  Every
hypothesis the driver ever constructs is of this shape. -/
inductive HypOK {Ctx W : Type} [LinearOrder W] [AddCommMonoid W] (tm : TM W) (lm : LM Ctx W) (f : List String) :
    hypothesis Ctx W → Prop where
  | root : HypOK tm lm f (rootHyp lm)
  | step {h : hypothesis Ctx W} {t : state Ctx × W × Phrase W} :
      HypOK tm lm f h → t ∈ extend_state tm lm h.state f →
      HypOK tm lm f (.mk (h.logprob + t.2.1) (some h) (some t.2.2) t.1)

/-- States reachable from the initial state by transitions of the
extension engine. -/
inductive ReachableState {Ctx W : Type} [LinearOrder W] [AddCommMonoid W] (tm : TM W) (lm : LM Ctx W) (f : List String) :
    state Ctx → Prop where
  | init : ReachableState tm lm f (initial_state lm)
  | step {s : state Ctx} {t : state Ctx × W × Phrase W} :
      ReachableState tm lm f s → t ∈ extend_state tm lm s f →
      ReachableState tm lm f t.1

theorem HypOK_reachable {Ctx W : Type} [LinearOrder W] [AddCommMonoid W] {tm : TM W} {lm : LM Ctx W} {f : List String}
    {h : hypothesis Ctx W} (hh : HypOK tm lm f h) :
    ReachableState tm lm f h.state := by
  induction hh with
  | root => exact ReachableState.init
  | step hok hmem ih => exact ReachableState.step ih hmem

/-- Invariant of a stack entry sitting at stack index `idx`: the key is
the hypothesis's state, the coverage index is in range, the stack index
is the one `assign_stack` computes, and any open gap is a nonempty span
below the coverage index whose table lookup succeeds. -/
def EntryOK {Ctx W : Type} [LinearOrder W] [AddCommMonoid W] (tm : TM W) (f : List String) (idx : Nat)
    (e : state Ctx × hypothesis Ctx W) : Prop :=
  e.2.state = e.1 ∧ e.1.i ≤ f.length ∧ assign_stack e.1 = (idx : Int) ∧
  ∀ g, e.1.gap = some g →
    g.1 < g.2 ∧ g.2 ≤ e.1.i ∧ (TM.find tm (slice f g.1 g.2)).isSome

/-- Invariant of the whole stack array. -/
def StacksOK {Ctx W : Type} [LinearOrder W] [AddCommMonoid W] (tm : TM W) (lm : LM Ctx W) (f : List String)
    (stks : List (Stack Ctx W)) : Prop :=
  ∀ idx : Nat, ∀ e ∈ stks.getD idx [], EntryOK tm f idx e ∧ HypOK tm lm f e.2

/-- Every single-token span of `f` has a nonempty candidate list (the
guarantee the OOV fallback establishes). -/
def SingletonsCovered (tm : TM W) (f : List String) : Prop :=
  ∀ (i : Nat) (hi : i < f.length),
    ∃ ps, TM.find tm [f.get ⟨i, hi⟩] = some ps ∧ ps ≠ []

theorem foldl_insert_length {Ctx W : Type} [LinearOrder W] [AddCommMonoid W] [DecidableEq Ctx] (h : hypothesis Ctx W)
    (l : List (state Ctx × W × Phrase W)) (stks : List (Stack Ctx W)) :
    (l.foldl (fun acc t => stacksInsert acc t.1
      (.mk (h.logprob + t.2.1) (some h) (some t.2.2) t.1)) stks).length =
      stks.length := by
  induction l generalizing stks with
  | nil => rfl
  | cons t rest ih => rw [List.foldl_cons, ih, length_stacksInsert]

theorem foldl_insert_mem {Ctx W : Type} [LinearOrder W] [AddCommMonoid W] [DecidableEq Ctx] {h : hypothesis Ctx W}
    {l : List (state Ctx × W × Phrase W)} {stks : List (Stack Ctx W)} {idx : Nat}
    {e : state Ctx × hypothesis Ctx W}
    (he : e ∈ (l.foldl (fun acc t => stacksInsert acc t.1
      (.mk (h.logprob + t.2.1) (some h) (some t.2.2) t.1)) stks).getD idx []) :
    e ∈ stks.getD idx [] ∨ ∃ t ∈ l,
      e = (t.1, hypothesis.mk (h.logprob + t.2.1) (some h) (some t.2.2) t.1) ∧
      idx = pyIdx stks.length (assign_stack t.1) := by
  induction l generalizing stks with
  | nil => exact Or.inl he
  | cons t0 rest ih =>
    rw [List.foldl_cons] at he
    rcases ih he with h1 | ⟨t, htl, he2, hidx⟩
    · rcases stacksInsert_mem h1 with h2 | ⟨h2, hidx⟩
      · exact Or.inl h2
      · exact Or.inr ⟨t0, List.mem_cons_self _ _, h2, hidx⟩
    · exact Or.inr ⟨t, List.mem_cons_of_mem _ htl, he2,
        by rw [hidx, length_stacksInsert]⟩

theorem foldl_insert_nonempty_pres {Ctx W : Type} [LinearOrder W] [AddCommMonoid W] [DecidableEq Ctx]
    {h : hypothesis Ctx W} (l : List (state Ctx × W × Phrase W))
    {stks : List (Stack Ctx W)} (idx : Nat)
    (hne : stks.getD idx [] ≠ []) :
    (l.foldl (fun acc t => stacksInsert acc t.1
      (.mk (h.logprob + t.2.1) (some h) (some t.2.2) t.1)) stks).getD idx [] ≠ [] := by
  induction l generalizing stks with
  | nil => exact hne
  | cons t0 rest ih =>
    rw [List.foldl_cons]
    exact ih (stacksInsert_nonempty_pres _ _ _ hne)

theorem foldl_insert_makes_nonempty {Ctx W : Type} [LinearOrder W] [AddCommMonoid W] [DecidableEq Ctx]
    {h : hypothesis Ctx W} {l : List (state Ctx × W × Phrase W)}
    {stks : List (Stack Ctx W)} {t : state Ctx × W × Phrase W} (htl : t ∈ l)
    (hlt : pyIdx stks.length (assign_stack t.1) < stks.length) :
    (l.foldl (fun acc t => stacksInsert acc t.1
      (.mk (h.logprob + t.2.1) (some h) (some t.2.2) t.1)) stks).getD
        (pyIdx stks.length (assign_stack t.1)) [] ≠ [] := by
  induction l generalizing stks with
  | nil => cases htl
  | cons t0 rest ih =>
    rw [List.foldl_cons]
    rcases List.mem_cons.1 htl with rfl | htl'
    · apply foldl_insert_nonempty_pres
      exact stacksInsert_makes_nonempty _ _ _ hlt
    · have hlen := length_stacksInsert stks t0.1
        (hypothesis.mk (h.logprob + t0.2.1) (some h) (some t0.2.2) t0.1)
      have hlt' : pyIdx (stacksInsert stks t0.1
          (hypothesis.mk (h.logprob + t0.2.1) (some h) (some t0.2.2) t0.1)).length
          (assign_stack t.1) < (stacksInsert stks t0.1
          (hypothesis.mk (h.logprob + t0.2.1) (some h) (some t0.2.2) t0.1)).length := by
        rw [hlen]; exact hlt
      have := ih htl' hlt'
      rw [hlen] at this
      exact this

theorem foldl_expand_length {Ctx W : Type} [LinearOrder W] [AddCommMonoid W] [DecidableEq Ctx] (tm : TM W) (lm : LM Ctx W)
    (f : List String) (hs : List (hypothesis Ctx W)) (stks : List (Stack Ctx W)) :
    (hs.foldl (expandHyp tm lm f) stks).length = stks.length := by
  induction hs generalizing stks with
  | nil => rfl
  | cons h rest ih =>
    rw [List.foldl_cons, ih]
    exact foldl_insert_length h _ stks

theorem foldl_expand_mem {Ctx W : Type} [LinearOrder W] [AddCommMonoid W] [DecidableEq Ctx] {tm : TM W} {lm : LM Ctx W}
    {f : List String} {hs : List (hypothesis Ctx W)} {stks : List (Stack Ctx W)}
    {idx : Nat} {e : state Ctx × hypothesis Ctx W}
    (he : e ∈ (hs.foldl (expandHyp tm lm f) stks).getD idx []) :
    e ∈ stks.getD idx [] ∨ ∃ h ∈ hs, ∃ t ∈ extend_state tm lm h.state f,
      e = (t.1, hypothesis.mk (h.logprob + t.2.1) (some h) (some t.2.2) t.1) ∧
      idx = pyIdx stks.length (assign_stack t.1) := by
  induction hs generalizing stks with
  | nil => exact Or.inl he
  | cons h0 rest ih =>
    rw [List.foldl_cons] at he
    rcases ih he with h1 | ⟨h, hh, t, ht, he2, hidx⟩
    · rcases foldl_insert_mem h1 with h2 | ⟨t, ht, he2, hidx⟩
      · exact Or.inl h2
      · exact Or.inr ⟨h0, List.mem_cons_self _ _, t, ht, he2, hidx⟩
    · refine Or.inr ⟨h, List.mem_cons_of_mem _ hh, t, ht, he2, ?_⟩
      rw [hidx, expandHyp, foldl_insert_length]

theorem foldl_expand_nonempty_pres {Ctx W : Type} [LinearOrder W] [AddCommMonoid W] [DecidableEq Ctx] {tm : TM W}
    {lm : LM Ctx W} {f : List String} (hs : List (hypothesis Ctx W))
    {stks : List (Stack Ctx W)} (idx : Nat) (hne : stks.getD idx [] ≠ []) :
    (hs.foldl (expandHyp tm lm f) stks).getD idx [] ≠ [] := by
  induction hs generalizing stks with
  | nil => exact hne
  | cons h0 rest ih =>
    rw [List.foldl_cons]
    exact ih (foldl_insert_nonempty_pres _ _ hne)

theorem mem_pruneStack {Ctx W : Type} [LinearOrder W] [AddCommMonoid W] (beam : Nat) (stk : Stack Ctx W)
    (h : hypothesis Ctx W) (hh : h ∈ pruneStack beam stk) :
    ∃ st, (st, h) ∈ stk := by
  have h1 : h ∈ pySorted byDescLogprob (stk.map Prod.snd) :=
    List.take_subset _ _ hh
  have h2 : h ∈ stk.map Prod.snd := (perm_pySorted byDescLogprob _).mem_iff.1 h1
  obtain ⟨e, he, heq⟩ := List.mem_map.1 h2
  exact ⟨e.1, by rw [← heq]; exact he⟩

theorem pruneStack_ne_nil {Ctx W : Type} [LinearOrder W] [AddCommMonoid W] {beam : Nat} {stk : Stack Ctx W}
    (hs : stk ≠ []) (hb : 1 ≤ beam) : pruneStack beam stk ≠ [] := by
  intro h
  have hlen := congrArg List.length h
  rw [pruneStack, List.length_take, (perm_pySorted byDescLogprob _).length_eq,
    List.length_map, List.length_nil] at hlen
  have hpos : 0 < stk.length := List.length_pos.2 hs
  omega

theorem initStacks_eq {Ctx W : Type} [LinearOrder W] [AddCommMonoid W] (lm : LM Ctx W) (f : List String) :
    initStacks lm f =
      [(initial_state lm, rootHyp lm)] :: List.replicate f.length [] := by
  rw [initStacks, ← List.replicate_succ' f.length ([] : Stack Ctx W),
    List.replicate_succ]
  rfl

theorem length_initStacks {Ctx W : Type} [LinearOrder W] [AddCommMonoid W] (lm : LM Ctx W) (f : List String) :
    (initStacks lm f).length = f.length + 1 := by
  rw [initStacks_eq]
  simp

theorem getD_replicate_nil {Ctx W : Type} [LinearOrder W] [AddCommMonoid W] :
    ∀ (n m : Nat), (List.replicate n ([] : Stack Ctx W)).getD m [] = []
  | 0, _ => rfl
  | _ + 1, 0 => rfl
  | n + 1, m + 1 => getD_replicate_nil n m

theorem StacksOK_init {Ctx W : Type} [LinearOrder W] [AddCommMonoid W] (tm : TM W) (lm : LM Ctx W) (f : List String) :
    StacksOK tm lm f (initStacks lm f) := by
  intro idx e he
  rw [initStacks_eq] at he
  cases idx with
  | zero =>
    rcases List.mem_singleton.1 he with rfl
    refine ⟨⟨rfl, by simp [initial_state], ?_, ?_⟩, HypOK.root⟩
    · rw [assign_stack_nogap _ rfl]; rfl
    · intro g hg
      exact Option.noConfusion hg
  | succ n =>
    rw [List.getD_cons_succ, getD_replicate_nil] at he
    cases he

theorem decode_eq_range {Ctx W : Type} [LinearOrder W] [AddCommMonoid W] [DecidableEq Ctx] (tm : TM W) (lm : LM Ctx W)
    (beam : Nat) (f : List String) :
    decode tm lm beam f =
      (List.range f.length).foldl (stepStack tm lm beam f) (initStacks lm f) := by
  rw [decode, length_initStacks, Nat.add_sub_cancel]

theorem foldl_range_inv {α : Type} (P : Nat → α → Prop) (g : α → Nat → α)
    (n : Nat) (s0 : α) (h0 : P 0 s0)
    (hstep : ∀ i s, i < n → P i s → P (i + 1) (g s i)) :
    P n ((List.range n).foldl g s0) := by
  induction n with
  | zero => exact h0
  | succ m ih =>
    rw [List.range_succ, List.foldl_append, List.foldl_cons, List.foldl_nil]
    exact hstep m _ (Nat.lt_succ_self m)
      (ih (fun i s hi => hstep i s (Nat.lt_succ_of_lt hi)))

theorem length_stepStack {Ctx W : Type} [LinearOrder W] [AddCommMonoid W] [DecidableEq Ctx] (tm : TM W) (lm : LM Ctx W)
    (beam : Nat) (f : List String) (stks : List (Stack Ctx W)) (i : Nat) :
    (stepStack tm lm beam f stks i).length = stks.length := by
  rw [stepStack]
  exact foldl_expand_length _ _ _ _ _

theorem stepStack_StacksOK {Ctx W : Type} [LinearOrder W] [AddCommMonoid W] [DecidableEq Ctx] {tm : TM W} {lm : LM Ctx W}
    {beam : Nat} {f : List String} {stks : List (Stack Ctx W)} (i : Nat)
    (hok : StacksOK tm lm f stks) :
    StacksOK tm lm f (stepStack tm lm beam f stks i) := by
  intro idx e he
  rw [stepStack] at he
  rcases foldl_expand_mem he with h1 | ⟨h, hh, t, ht, he2, hidx⟩
  · exact hok idx e h1
  · obtain ⟨st, hst⟩ := mem_pruneStack _ _ _ hh
    obtain ⟨⟨hstate, hile, hassign, hgapok⟩, hhok⟩ := hok i (st, h) hst
    have hsi : h.state.i ≤ f.length := by rw [hstate]; exact hile
    subst he2
    refine ⟨⟨rfl, extend_i_upper ht hsi, ?_, extend_gap_targets ht⟩,
      HypOK.step hhok ht⟩
    have h0 := extend_assign_nonneg ht
    rw [hidx, pyIdx, if_neg (by omega)]
    exact (Int.toNat_of_nonneg h0).symm

theorem decode_invariant {Ctx W : Type} [LinearOrder W] [AddCommMonoid W] [DecidableEq Ctx] (tm : TM W) (lm : LM Ctx W)
    (beam : Nat) (f : List String) :
    StacksOK tm lm f (decode tm lm beam f) ∧
      (decode tm lm beam f).length = f.length + 1 := by
  rw [decode_eq_range]
  refine foldl_range_inv
    (fun _ stks => StacksOK tm lm f stks ∧ stks.length = f.length + 1) _
    f.length _ ⟨StacksOK_init tm lm f, length_initStacks lm f⟩ ?_
  intro i stks _ hP
  exact ⟨stepStack_StacksOK i hP.1, by rw [length_stepStack]; exact hP.2⟩

theorem stepStack_progress {Ctx W : Type} [LinearOrder W] [AddCommMonoid W] [DecidableEq Ctx] {tm : TM W} {lm : LM Ctx W}
    {beam : Nat} {f : List String} {stks : List (Stack Ctx W)} (i : Nat)
    (hok : StacksOK tm lm f stks) (hL : stks.length = f.length + 1)
    (hsing : SingletonsCovered tm f) (hwf : TM.WF tm) (hbeam : 1 ≤ beam)
    (hi : i < f.length)
    (hne : ∃ j, i ≤ j ∧ j ≤ f.length ∧ stks.getD j [] ≠ []) :
    ∃ j, i + 1 ≤ j ∧ j ≤ f.length ∧
      (stepStack tm lm beam f stks i).getD j [] ≠ [] := by
  obtain ⟨j, hij, hjL, hjne⟩ := hne
  by_cases hji : j = i
  · subst hji
    have hpr : pruneStack beam (stks.getD j []) ≠ [] := pruneStack_ne_nil hjne hbeam
    obtain ⟨h0, rest, hpr_eq⟩ := List.exists_cons_of_ne_nil hpr
    have hh0 : h0 ∈ pruneStack beam (stks.getD j []) := by
      rw [hpr_eq]; exact List.mem_cons_self _ _
    obtain ⟨st, hst⟩ := mem_pruneStack _ _ _ hh0
    obtain ⟨⟨hstate, hile, hassign, hgapok⟩, _⟩ := hok j (st, h0) hst
    have hmain : ∃ t, t ∈ extend_state tm lm h0.state f ∧
        (j : Int) < assign_stack t.1 ∧ assign_stack t.1 ≤ (f.length : Int) := by
      cases hsg : st.gap with
      | none =>
        have hsti : st.i = j := by
          have := hassign
          rw [assign_stack_nogap st hsg] at this
          exact_mod_cast this
        have hjf : j < f.length := hi
        obtain ⟨ps, hfind, hps⟩ := hsing j hjf
        have hslice : TM.find tm (slice f j (j + 1)) = some ps := by
          rw [slice_singleton f j hjf]; exact hfind
        refine ⟨(⟨j + 1, none,
            (add_log_probs lm h0.state.lm_state (ps.head hps)
              (decide (j + 1 = f.length))).1⟩,
            (add_log_probs lm h0.state.lm_state (ps.head hps)
              (decide (j + 1 = f.length))).2, ps.head hps), ?_, ?_, ?_⟩
        · refine (mem_extend_nogap tm lm h0.state f (by rw [hstate, hsg]) _).2
            (Or.inl ⟨j + 1, ps, ?_, hjf, ?_, List.head_mem hps, rfl, rfl⟩)
          · rw [hstate, hsti]; omega
          · rw [hstate, hsti]; exact hslice
        · rw [assign_stack_nogap _ rfl]; exact_mod_cast Nat.lt_succ_self j
        · rw [assign_stack_nogap _ rfl]; exact_mod_cast hjf
      | some g =>
        obtain ⟨hg12, hg2i, hfind⟩ := hgapok g hsg
        obtain ⟨ps, hps⟩ := Option.isSome_iff_exists.1 hfind
        have hpsne : ps ≠ [] := hwf _ (TM.find_mem hps)
        refine ⟨(⟨st.i, none,
            (add_log_probs lm h0.state.lm_state (ps.head hpsne)
              (decide (st.i = f.length))).1⟩,
            (add_log_probs lm h0.state.lm_state (ps.head hpsne)
              (decide (st.i = f.length))).2, ps.head hpsne), ?_, ?_, ?_⟩
        · refine (mem_extend_gap tm lm h0.state f g (by rw [hstate, hsg]) _).2
            ⟨?_, by rw [hstate], by rw [hstate]⟩
          dsimp only
          rw [hps]
          exact List.head_mem hpsne
        · rw [assign_stack_nogap _ rfl]
          show (j : Int) < (st.i : Int)
          have := hassign
          rw [assign_stack_gap st g hsg] at this
          have hc1 : ((g.1 : Int)) < (g.2 : Int) := by exact_mod_cast hg12
          omega
        · rw [assign_stack_nogap _ rfl]; exact_mod_cast hile
    obtain ⟨t0, ht0, hgt, hle⟩ := hmain
    have hnn : 0 ≤ assign_stack t0.1 := extend_assign_nonneg ht0
    refine ⟨pyIdx stks.length (assign_stack t0.1), ?_, ?_, ?_⟩
    · rw [pyIdx, if_neg (by omega)]; omega
    · rw [pyIdx, if_neg (by omega)]; omega
    · rw [stepStack, hpr_eq, List.foldl_cons]
      have hlen2 : pyIdx stks.length (assign_stack t0.1) < stks.length := by
        rw [pyIdx, if_neg (by omega)]; omega
      have hstart : (expandHyp tm lm f stks h0).getD
          (pyIdx stks.length (assign_stack t0.1)) [] ≠ [] := by
        rw [expandHyp]
        exact foldl_insert_makes_nonempty ht0 hlen2
      exact foldl_expand_nonempty_pres rest _ hstart
  · refine ⟨j, by omega, hjL, ?_⟩
    rw [stepStack]
    exact foldl_expand_nonempty_pres _ _ hjne

theorem decode_final_nonempty {Ctx W : Type} [LinearOrder W] [AddCommMonoid W] [DecidableEq Ctx] (tm : TM W)
    (lm : LM Ctx W) (beam : Nat) (f : List String)
    (hsing : SingletonsCovered tm f) (hwf : TM.WF tm) (hbeam : 1 ≤ beam) :
    (decode tm lm beam f).getD f.length [] ≠ [] := by
  rw [decode_eq_range]
  have hmain := foldl_range_inv
    (fun i stks => (StacksOK tm lm f stks ∧ stks.length = f.length + 1) ∧
      ∃ j, i ≤ j ∧ j ≤ f.length ∧ stks.getD j [] ≠ [])
    (stepStack tm lm beam f) f.length (initStacks lm f)
    ⟨⟨StacksOK_init tm lm f, length_initStacks lm f⟩,
      ⟨0, Nat.le_refl 0, Nat.zero_le _, by rw [initStacks_eq]; simp⟩⟩
    (fun i stks hi hP =>
      ⟨⟨stepStack_StacksOK i hP.1.1, by rw [length_stepStack]; exact hP.1.2⟩,
        stepStack_progress i hP.1.1 hP.1.2 hsing hwf hbeam hi hP.2⟩)
  obtain ⟨_, j, hLj, hjL, hne⟩ := hmain
  have : j = f.length := by omega
  subst this
  exact hne

/-! ### The OOV fallback establishes singleton coverage -/

theorem TM.WF_addFallbacks {W : Type} [LinearOrder W] [AddCommMonoid W]
    (tm : TM W) (fs : List (List String)) (hwf : TM.WF tm) :
    TM.WF (addFallbacks tm fs) := by
  rw [addFallbacks]
  generalize fs.flatMap id = l
  induction l generalizing tm with
  | nil => exact hwf
  | cons w rest ih =>
    rw [List.foldl_cons]
    apply ih
    by_cases hw : (TM.find tm [w]).isSome
    · rw [if_pos hw]; exact hwf
    · rw [if_neg hw]
      intro e he
      rcases List.mem_cons.1 he with rfl | he2
      · simp
      · exact hwf e he2

theorem fallback_step_mono {W : Type} [LinearOrder W] [AddCommMonoid W]
    (tm : TM W) (w : String) (span : List String) (ps : List (Phrase W))
    (h : TM.find tm span = some ps) :
    TM.find (if (TM.find tm [w]).isSome then tm else ([w], [⟨w, 0⟩]) :: tm)
      span = some ps := by
  by_cases hw : (TM.find tm [w]).isSome
  · rw [if_pos hw]; exact h
  · rw [if_neg hw]
    rw [TM.find]
    by_cases hsp : [w] = span
    · exfalso
      rw [← hsp] at h
      rw [h] at hw
      exact hw rfl
    · rw [if_neg hsp]; exact h

theorem foldl_fallback_mono {W : Type} [LinearOrder W] [AddCommMonoid W]
    (l : List String) (tm : TM W) (span : List String) (ps : List (Phrase W))
    (h : TM.find tm span = some ps) :
    TM.find (l.foldl (fun t w =>
      if (TM.find t [w]).isSome then t else ([w], [⟨w, 0⟩]) :: t) tm) span =
      some ps := by
  induction l generalizing tm with
  | nil => exact h
  | cons w rest ih =>
    rw [List.foldl_cons]
    exact ih _ (fallback_step_mono tm w span ps h)

theorem foldl_fallback_covers {W : Type} [LinearOrder W] [AddCommMonoid W]
    (l : List String) (tm : TM W) (w : String) (hw : w ∈ l) :
    ∃ ps, TM.find (l.foldl (fun t w' =>
      if (TM.find t [w']).isSome then t else ([w'], [⟨w', 0⟩]) :: t) tm) [w] =
      some ps := by
  induction l generalizing tm with
  | nil => cases hw
  | cons w0 rest ih =>
    rw [List.foldl_cons]
    rcases List.mem_cons.1 hw with rfl | hw2
    · have hstep : ∃ ps, TM.find (if (TM.find tm [w]).isSome then tm
          else ([w], [⟨w, 0⟩]) :: tm) [w] = some ps := by
        by_cases h : (TM.find tm [w]).isSome
        · rw [if_pos h]; exact Option.isSome_iff_exists.1 h
        · rw [if_neg h]
          exact ⟨[⟨w, 0⟩], by rw [TM.find, if_pos rfl]⟩
      obtain ⟨ps, hps⟩ := hstep
      exact ⟨ps, foldl_fallback_mono rest _ [w] ps hps⟩
    · exact ih _ hw2

theorem addFallbacks_covers {W : Type} [LinearOrder W] [AddCommMonoid W]
    (tm : TM W) (fs : List (List String)) (hwf : TM.WF tm)
    (f : List String) (hf : f ∈ fs) :
    SingletonsCovered (addFallbacks tm fs) f ∧ TM.WF (addFallbacks tm fs) := by
  have hwf2 := TM.WF_addFallbacks tm fs hwf
  refine ⟨?_, hwf2⟩
  intro i hi
  have hwmem : f.get ⟨i, hi⟩ ∈ fs.flatMap id :=
    List.mem_flatMap.2 ⟨f, hf, List.get_mem f i hi⟩
  obtain ⟨ps, hps⟩ := foldl_fallback_covers (fs.flatMap id) tm _ hwmem
  have hps2 : TM.find (addFallbacks tm fs) [f.get ⟨i, hi⟩] = some ps := hps
  exact ⟨ps, hps2, hwf2 _ (TM.find_mem hps2)⟩

/-! ### Recombination insert: order analysis and winner selection -/

theorem dictFind_dictSet_self {Ctx W : Type} [LinearOrder W] [AddCommMonoid W]
    [DecidableEq Ctx] (stk : Stack Ctx W) (k : state Ctx) (v : hypothesis Ctx W) :
    dictFind (dictSet stk k v) k = some v := by
  induction stk with
  | nil => rw [dictSet, dictFind, if_pos rfl]
  | cons hd rest ih =>
    obtain ⟨k2, v2⟩ := hd
    rw [dictSet]
    by_cases hk : k2 = k
    · rw [if_pos hk, dictFind, if_pos rfl]
    · rw [if_neg hk, dictFind, if_neg hk]
      exact ih

theorem hypInsert_find_none {Ctx W : Type} [LinearOrder W] [AddCommMonoid W]
    [DecidableEq Ctx] {stk : Stack Ctx W}
    {ns : state Ctx} (h : hypothesis Ctx W) (hd : dictFind stk ns = none) :
    hypInsert stk ns h = dictSet stk ns h := by
  rw [hypInsert, hd]

theorem hypInsert_find_some {Ctx W : Type} [LinearOrder W] [AddCommMonoid W]
    [DecidableEq Ctx] {stk : Stack Ctx W} {ns : state Ctx}
    {old : hypothesis Ctx W} (h : hypothesis Ctx W)
    (hd : dictFind stk ns = some old) :
    hypInsert stk ns h =
      if old.logprob < h.logprob then dictSet stk ns h else stk := by
  rw [hypInsert, hd]

theorem pyMax_isSome {Ctx W : Type} [LinearOrder W] [AddCommMonoid W]
    {l : List (hypothesis Ctx W)} (hl : l ≠ []) : (pyMax l).isSome := by
  cases l with
  | nil => exact absurd rfl hl
  | cons h t => rfl

/-! ### Concrete instances used to exercise the theorems -/

/-- A trivial language model over a singleton context: every word scores
`-1`, the end-of-sentence score is `-2`. -/
def lmU : LM Unit ℤ :=
  { begin := (), score := fun _ _ => ((), -1), end_ := fun _ => -2 }

/-- A small phrase table with one candidate per source token. -/
def tmXYZ : TM ℤ :=
  [(["x"], [⟨"X", -3⟩]), (["y"], [⟨"Y", -5⟩]), (["z"], [⟨"Z", -7⟩])]

/-- A three-token source sentence. -/
def fXYZ : List String := ["x", "y", "z"]

/-- A fixed state used in the recombination analysis. -/
def stA : state Unit := ⟨0, none, ()⟩

/-- Two distinct hypotheses with equal logprob reaching `stA`. -/
def hypA : hypothesis Unit ℤ := .mk 0 none (some ⟨"a", 0⟩) stA

/-- The second equal-logprob hypothesis reaching `stA`. -/
def hypB : hypothesis Unit ℤ := .mk 0 none (some ⟨"b", 0⟩) stA

/-- The hypothesis the decoder builds after translating `x`. -/
def hypD1 : hypothesis Unit ℤ :=
  .mk (-4) (some (rootHyp lmU)) (some ⟨"X", -3⟩) ⟨1, none, ()⟩

/-- The hypothesis after additionally translating `y`. -/
def hypD2 : hypothesis Unit ℤ :=
  .mk (-10) (some hypD1) (some ⟨"Y", -5⟩) ⟨2, none, ()⟩

/-- The full-coverage hypothesis after translating `z` (with the
end-of-sentence score). -/
def hypD3 : hypothesis Unit ℤ :=
  .mk (-20) (some hypD2) (some ⟨"Z", -7⟩) ⟨3, none, ()⟩

/-! ### The claims -/

/-- C1: from a state with no open gap over a sentence of length `L`, the
extension engine's no-gap transitions are exactly the Case A transitions:
for every `j` with `s.i < j ≤ L` whose span `f[s.i:j]` has a phrase-table
entry, one transition per candidate phrase to
`state(covered_upto = j, gap = none, lm_context = updated)`, scored by
`add_log_probs` (§4.1.1) with the end-of-sentence flag set iff `j = L`;
no other no-gap transitions are produced.  The second conjunct states
what the flag does: end-of-sentence scoring adds exactly the language
model's end score for the final context. -/
theorem caseA_exact {Ctx W : Type} [LinearOrder W] [AddCommMonoid W]
    (tm : TM W) (lm : LM Ctx W) (s : state Ctx) (f : List String)
    (hg : s.gap = none) :
    (∀ t : state Ctx × W × Phrase W,
      (t ∈ extend_state tm lm s f ∧ t.1.gap = none) ↔ caseA_trans tm lm s f t) ∧
    (∀ (c : Ctx) (p : Phrase W),
      add_log_probs lm c p true =
        ((add_log_probs lm c p false).1,
          (add_log_probs lm c p false).2 +
            lm.end_ (add_log_probs lm c p false).1)) := by
  constructor
  · intro t
    constructor
    · rintro ⟨ht, htg⟩
      rcases (mem_extend_nogap tm lm s f hg t).1 ht with hA | hB
      · exact hA
      · exfalso
        obtain ⟨j, k, ps, h1, h2, h3, h4, h5, h6, hns, h8⟩ := hB
        rw [hns] at htg
        exact Option.noConfusion htg
    · intro hA
      refine ⟨(mem_extend_nogap tm lm s f hg t).2 (Or.inl hA), ?_⟩
      obtain ⟨j, ps, h1, h2, h3, h4, hns, h6⟩ := hA
      rw [hns]
  · intro c p
    rw [add_log_probs, add_log_probs]
    simp

theorem caseA_exact_witness :
    ((⟨1, none, ()⟩, (-4 : ℤ), (⟨"X", -3⟩ : Phrase ℤ)) ∈
        extend_state tmXYZ lmU (initial_state lmU) fXYZ ∧
      (⟨1, none, ()⟩ : state Unit).gap = none) :=
  ((caseA_exact tmXYZ lmU (initial_state lmU) fXYZ rfl).1 _).mpr
    ⟨1, [⟨"X", -3⟩], by decide, by decide, by decide, by decide, by decide,
      by decide⟩

/-- C2: from a state with no open gap, the gap-opening transitions are
exactly the Case B transitions: only for a `j` whose span `f[s.i:j]` is in
the table (the same `j` considered by Case A), and for every `k` with
`j < k ≤ L` whose span `f[j:k]` is in the table, one transition per
candidate phrase to `state(covered_upto = k, gap = (s.i, j))`, scored with
the end-of-sentence flag off.  Moreover, on a well-formed table, every
gap-opening transition is accompanied by a Case A transition at the same
`j` (the gap's right end). -/
theorem caseB_exact {Ctx W : Type} [LinearOrder W] [AddCommMonoid W]
    (tm : TM W) (lm : LM Ctx W) (s : state Ctx) (f : List String)
    (hg : s.gap = none) :
    (∀ t : state Ctx × W × Phrase W,
      (t ∈ extend_state tm lm s f ∧ t.1.gap ≠ none) ↔ caseB_trans tm lm s f t) ∧
    (TM.WF tm → ∀ (t : state Ctx × W × Phrase W) (g : Nat × Nat),
      t ∈ extend_state tm lm s f → t.1.gap = some g →
      ∃ t2 : state Ctx × W × Phrase W, t2 ∈ extend_state tm lm s f ∧
        t2.1.gap = none ∧ t2.1.i = g.2) := by
  constructor
  · intro t
    constructor
    · rintro ⟨ht, htg⟩
      rcases (mem_extend_nogap tm lm s f hg t).1 ht with hA | hB
      · exfalso
        obtain ⟨j, ps, h1, h2, h3, h4, hns, h6⟩ := hA
        rw [hns] at htg
        exact htg rfl
      · exact hB
    · intro hB
      refine ⟨(mem_extend_nogap tm lm s f hg t).2 (Or.inr hB), ?_⟩
      obtain ⟨j, k, ps, h1, h2, h3, h4, h5, h6, hns, h8⟩ := hB
      rw [hns]
      exact fun h => Option.noConfusion h
  · intro hwf t g ht htg
    rcases (mem_extend_nogap tm lm s f hg t).1 ht with hA | hB
    · exfalso
      obtain ⟨j, ps, h1, h2, h3, h4, hns, h6⟩ := hA
      rw [hns] at htg
      exact Option.noConfusion htg
    · obtain ⟨j, k, ps, hij, hjk, hkL, hsome, hfind2, hp, hns, hlp⟩ := hB
      rw [hns] at htg
      obtain rfl := (Option.some.inj htg).symm
      obtain ⟨ps1, hfind1⟩ := Option.isSome_iff_exists.1 hsome
      have hps1 : ps1 ≠ [] := hwf _ (TM.find_mem hfind1)
      refine ⟨(⟨j, none,
          (add_log_probs lm s.lm_state (ps1.head hps1)
            (decide (j = f.length))).1⟩,
          (add_log_probs lm s.lm_state (ps1.head hps1)
            (decide (j = f.length))).2, ps1.head hps1), ?_, rfl, rfl⟩
      exact (mem_extend_nogap tm lm s f hg _).2
        (Or.inl ⟨j, ps1, hij, Nat.le_of_lt (Nat.lt_of_lt_of_le hjk hkL),
          hfind1, List.head_mem hps1, rfl, rfl⟩)

theorem caseB_exact_witness :
    ∃ t2 : state Unit × ℤ × Phrase ℤ,
      t2 ∈ extend_state tmXYZ lmU (initial_state lmU) fXYZ ∧
        t2.1.gap = none ∧ t2.1.i = 1 :=
  (caseB_exact tmXYZ lmU (initial_state lmU) fXYZ rfl).2
    (by unfold TM.WF; decide)
    (⟨2, some (0, 1), ()⟩, -6, ⟨"Y", -5⟩) (0, 1) (by decide) rfl

/-- C3: from a state with an open gap `(g0, g1)`, the extension engine
emits exactly the Case C transitions: one per candidate phrase
translating `f[g0:g1]`, to `state(covered_upto = s.i, gap = none)` — the
coverage index is unchanged and the gap fully closes — with the
end-of-sentence flag set iff `s.i = L`; in particular no Case A or Case B
transition leaves a gapped state. -/
theorem caseC_exact {Ctx W : Type} [LinearOrder W] [AddCommMonoid W]
    (tm : TM W) (lm : LM Ctx W) (s : state Ctx) (f : List String)
    (g : Nat × Nat) (hg : s.gap = some g) :
    (∀ t : state Ctx × W × Phrase W,
      t ∈ extend_state tm lm s f ↔ caseC_trans tm lm s f g t) ∧
    (∀ t ∈ extend_state tm lm s f, t.1.i = s.i ∧ t.1.gap = none) := by
  refine ⟨fun t => mem_extend_gap tm lm s f g hg t, ?_⟩
  intro t ht
  obtain ⟨hp, hns, hlp⟩ := (mem_extend_gap tm lm s f g hg t).1 ht
  rw [hns]
  exact ⟨rfl, rfl⟩

theorem caseC_exact_witness :
    ((⟨2, none, ()⟩, (-4 : ℤ), (⟨"X", -3⟩ : Phrase ℤ)) ∈
        extend_state tmXYZ lmU (⟨2, some (0, 1), ()⟩ : state Unit) fXYZ) ↔
      caseC_trans tmXYZ lmU (⟨2, some (0, 1), ()⟩ : state Unit) fXYZ (0, 1)
        (⟨2, none, ()⟩, -4, ⟨"X", -3⟩) :=
  (caseC_exact tmXYZ lmU (⟨2, some (0, 1), ()⟩ : state Unit) fXYZ (0, 1) rfl).1 _

/-- C4 (counterexample): with two distinct hypotheses of equal cumulative
logprob reaching the same state, the content of the stack mapping after
both insertions depends on the insertion order — the first-inserted
hypothesis survives either way — so the outcome is not independent of
arrival order when the logprobs are equal. -/
theorem recombination_tie_order_dependent :
    hypothesis.logprob hypA = hypothesis.logprob hypB ∧
    hypInsert (hypInsert ([] : Stack Unit ℤ) stA hypA) stA hypB = [(stA, hypA)] ∧
    hypInsert (hypInsert ([] : Stack Unit ℤ) stA hypB) stA hypA = [(stA, hypB)] ∧
    hypA ≠ hypB := by
  decide

/-- C4 (amended): when two hypotheses reaching the same state have
distinct cumulative logprobs, only the strictly greater one survives in
the stack's mapping, regardless of insertion order; when the logprobs are
equal, the first-inserted hypothesis survives (so the surviving state and
logprob — though not the hypothesis itself — are order-independent). -/
theorem recombination_order_cases {Ctx W : Type} [LinearOrder W]
    [AddCommMonoid W] [DecidableEq Ctx] (d : Stack Ctx W) (st : state Ctx)
    (h1 h2 : hypothesis Ctx W) (hd : dictFind d st = none) :
    (h2.logprob < h1.logprob →
      dictFind (hypInsert (hypInsert d st h1) st h2) st = some h1 ∧
      dictFind (hypInsert (hypInsert d st h2) st h1) st = some h1) ∧
    (h1.logprob < h2.logprob →
      dictFind (hypInsert (hypInsert d st h1) st h2) st = some h2 ∧
      dictFind (hypInsert (hypInsert d st h2) st h1) st = some h2) ∧
    (h1.logprob = h2.logprob →
      dictFind (hypInsert (hypInsert d st h1) st h2) st = some h1 ∧
      dictFind (hypInsert (hypInsert d st h2) st h1) st = some h2) := by
  have e1 : hypInsert d st h1 = dictSet d st h1 := hypInsert_find_none h1 hd
  have e2 : hypInsert d st h2 = dictSet d st h2 := hypInsert_find_none h2 hd
  have f1 : dictFind (dictSet d st h1) st = some h1 := dictFind_dictSet_self d st h1
  have f2 : dictFind (dictSet d st h2) st = some h2 := dictFind_dictSet_self d st h2
  refine ⟨?_, ?_, ?_⟩
  · intro hlt
    constructor
    · rw [e1, hypInsert_find_some h2 f1, if_neg (not_lt.2 (le_of_lt hlt)), f1]
    · rw [e2, hypInsert_find_some h1 f2, if_pos hlt, dictFind_dictSet_self]
  · intro hlt
    constructor
    · rw [e1, hypInsert_find_some h2 f1, if_pos hlt, dictFind_dictSet_self]
    · rw [e2, hypInsert_find_some h1 f2, if_neg (not_lt.2 (le_of_lt hlt)), f2]
  · intro heq
    constructor
    · rw [e1, hypInsert_find_some h2 f1, if_neg (not_lt.2 (le_of_eq heq.symm)), f1]
    · rw [e2, hypInsert_find_some h1 f2, if_neg (not_lt.2 (le_of_eq heq)), f2]

theorem recombination_order_cases_witness :
    dictFind (hypInsert (hypInsert ([] : Stack Unit ℤ) stA hypA) stA hypB) stA =
        some hypA ∧
      dictFind (hypInsert (hypInsert ([] : Stack Unit ℤ) stA hypB) stA hypA)
        stA = some hypB :=
  (recombination_order_cases [] stA hypA hypB rfl).2.2 rfl

/-- C5: the decoder processes exactly the stacks `0 .. L-1` in index
order, never expanding from the final stack; for each processed stack `i`
it expands exactly the top `beam` hypotheses of stack `i` sorted by
descending cumulative logprob, each extension receiving cumulative
logprob `h.logprob +` the extension's increment.  The second conjunct
certifies that the pruned list really is descending by logprob. -/
theorem pruning_expansion_order {Ctx W : Type} [LinearOrder W]
    [AddCommMonoid W] [DecidableEq Ctx] (tm : TM W) (lm : LM Ctx W)
    (beam : Nat) (f : List String) :
    decode tm lm beam f =
      (List.range f.length).foldl
        (fun stks i =>
          ((pySorted byDescLogprob ((stks.getD i []).map Prod.snd)).take
              beam).foldl
            (fun acc h =>
              (extend_state tm lm h.state f).foldl
                (fun acc2 t => stacksInsert acc2 t.1
                  (.mk (h.logprob + t.2.1) (some h) (some t.2.2) t.1)) acc)
            stks)
        (initStacks lm f) ∧
    ∀ stk : Stack Ctx W,
      ((pySorted byDescLogprob (stk.map Prod.snd)).take beam).Pairwise
        (fun a b => b.logprob ≤ a.logprob) := by
  constructor
  · rw [decode_eq_range]
    rfl
  · intro stk
    have htrans : ∀ a b c : hypothesis Ctx W, byDescLogprob a b = true →
        byDescLogprob b c = true → byDescLogprob a c = true := by
      intro a b c hab hbc
      rw [byDescLogprob] at hab hbc ⊢
      exact decide_eq_true (le_trans (of_decide_eq_true hbc) (of_decide_eq_true hab))
    have htot : ∀ a b : hypothesis Ctx W,
        byDescLogprob a b = true ∨ byDescLogprob b a = true := by
      intro a b
      rw [byDescLogprob, byDescLogprob]
      rcases le_total b.logprob a.logprob with h | h
      · exact Or.inl (decide_eq_true h)
      · exact Or.inr (decide_eq_true h)
    have hp := pairwise_pySorted byDescLogprob htrans htot (stk.map Prod.snd)
    have hp2 := hp.sublist (List.take_sublist beam _)
    exact hp2.imp (fun hab => of_decide_eq_true hab)

/-- C6: with the destination stack index computed by `assign_stack`
(coverage minus the open gap's span length), no state with an open gap is
ever assigned the final stack index `L`, and every entry of the final
stack after decoding has `covered_upto = L` and no gap. -/
theorem final_stack_purity {Ctx W : Type} [LinearOrder W] [AddCommMonoid W]
    [DecidableEq Ctx] (tm : TM W) (lm : LM Ctx W) (beam : Nat)
    (f : List String) :
    (∀ (s : state Ctx) (t : state Ctx × W × Phrase W),
      t ∈ extend_state tm lm s f → t.1.gap ≠ none →
      assign_stack t.1 < (f.length : Int)) ∧
    (∀ e ∈ (decode tm lm beam f).getD f.length [],
      e.1.i = f.length ∧ e.1.gap = none) := by
  constructor
  · intro s t ht hgap
    obtain ⟨g, hg⟩ := Option.ne_none_iff_exists'.1 hgap
    exact extend_assign_lt_of_gap ht g hg
  · intro e he
    obtain ⟨⟨hstate, hile, hassign, hgapok⟩, _⟩ :=
      (decode_invariant tm lm beam f).1 f.length e he
    cases hgap : e.1.gap with
    | none =>
      rw [assign_stack_nogap _ hgap] at hassign
      exact ⟨by exact_mod_cast hassign, rfl⟩
    | some g =>
      obtain ⟨h1, h2, _⟩ := hgapok g hgap
      rw [assign_stack_gap _ g hgap] at hassign
      exfalso
      omega

theorem final_stack_purity_witness :
    ((⟨3, none, ()⟩ : state Unit).i = fXYZ.length ∧
      (⟨3, none, ()⟩ : state Unit).gap = none) ∧
    assign_stack (⟨2, some (0, 1), ()⟩ : state Unit) < (fXYZ.length : Int) :=
  ⟨(final_stack_purity tmXYZ lmU 5 fXYZ).2 (⟨3, none, ()⟩, hypD3) (by decide),
    (final_stack_purity tmXYZ lmU 5 fXYZ).1 (initial_state lmU)
      (⟨2, some (0, 1), ()⟩, -6, ⟨"Y", -5⟩) (by decide) (by decide)⟩

/-- C7: every hypothesis in the decoder's stacks is a well-formed chain
from the root (`HypOK`), and along any such chain the coverage index is
non-decreasing, strictly increasing on every step except a gap-closing
one (where it is unchanged, the predecessor has a gap and the successor
has none); the measure `gmeasure` strictly increases on every step, so no
state repeats along a predecessor chain (chains are acyclic).  The state
type permits at most one open gap, so no reachable state has two. -/
theorem coverage_monotonicity {Ctx W : Type} [LinearOrder W] [AddCommMonoid W]
    [DecidableEq Ctx] (tm : TM W) (lm : LM Ctx W) (beam : Nat)
    (f : List String) :
    (∀ idx : Nat, ∀ e ∈ (decode tm lm beam f).getD idx [],
      HypOK tm lm f e.2) ∧
    (∀ h : hypothesis Ctx W, HypOK tm lm f h →
      ∀ pred, h.predecessor = some pred →
      pred.state.i ≤ h.state.i ∧
      (h.state.i = pred.state.i → pred.state.gap ≠ none ∧ h.state.gap = none) ∧
      gmeasure pred.state < gmeasure h.state) := by
  constructor
  · intro idx e he
    exact ((decode_invariant tm lm beam f).1 idx e he).2
  · intro h hok pred hpred
    cases hok with
    | root => exact Option.noConfusion hpred
    | step hok2 hmem =>
      obtain rfl := (Option.some.inj hpred).symm
      exact ⟨extend_i_mono hmem, fun heq => extend_i_eq_cases hmem heq,
        extend_gmeasure_lt hmem⟩

theorem coverage_monotonicity_witness :
    (rootHyp lmU).state.i ≤ hypD1.state.i ∧
    (hypD1.state.i = (rootHyp lmU).state.i →
      (rootHyp lmU).state.gap ≠ none ∧ hypD1.state.gap = none) ∧
    gmeasure (rootHyp lmU).state < gmeasure hypD1.state :=
  (coverage_monotonicity tmXYZ lmU 5 fXYZ).2 hypD1
    ((coverage_monotonicity tmXYZ lmU 5 fXYZ).1 1 (⟨1, none, ()⟩, hypD1)
      (by decide))
    (rootHyp lmU) rfl

/-- C8: after the OOV fallback (which guarantees a nonempty candidate
list for every single-token span of the input), decoding any sentence of
the batch with a positive beam ends with a non-empty final stack, so
winner selection never runs on an empty collection.  `TM.WF` is the
phrase-table interface assumption that table entries are nonempty
candidate lists (spec §6). -/
theorem decode_never_fails {Ctx W : Type} [LinearOrder W] [AddCommMonoid W]
    [DecidableEq Ctx] (tm : TM W) (lm : LM Ctx W) (beam : Nat)
    (fs : List (List String)) (f : List String)
    (hwf : TM.WF tm) (hf : f ∈ fs) (hbeam : 1 ≤ beam) :
    (winner (decode (addFallbacks tm fs) lm beam f)).isSome := by
  obtain ⟨hcov, hwf2⟩ := addFallbacks_covers tm fs hwf f hf
  have hne := decode_final_nonempty (addFallbacks tm fs) lm beam f hcov hwf2 hbeam
  have hlen := (decode_invariant (addFallbacks tm fs) lm beam f).2
  rw [winner]
  have hlast : ((decode (addFallbacks tm fs) lm beam f).getLast?).getD [] =
      (decode (addFallbacks tm fs) lm beam f).getD f.length [] := by
    rw [List.getLast?_eq_getElem?, hlen, Nat.add_sub_cancel,
      ← List.getD_eq_getElem?_getD]
  rw [hlast]
  apply pyMax_isSome
  intro hmapnil
  exact hne (List.map_eq_nil_iff.1 hmapnil)

theorem decode_never_fails_witness :
    (winner (decode (addFallbacks ([] : TM ℤ) [fXYZ]) lmU 1 fXYZ)).isSome :=
  decode_never_fails [] lmU 1 [fXYZ] fXYZ (by unfold TM.WF; decide)
    (by decide) (by decide)

/-- C9: every state reachable from the initial state whose gap is
`(g0, g1)` has a phrase-table entry for the span `f[g0:g1]` (a gap is
only ever opened on a span whose membership was checked, and the table is
a fixed parameter of the search), so the membership-unchecked lookup
performed when filling a gap always succeeds; moreover every state stored
in the decoder's stacks is reachable. -/
theorem gap_lookup_safe {Ctx W : Type} [LinearOrder W] [AddCommMonoid W]
    [DecidableEq Ctx] (tm : TM W) (lm : LM Ctx W) (beam : Nat)
    (f : List String) :
    (∀ s : state Ctx, ReachableState tm lm f s → ∀ g, s.gap = some g →
      (TM.find tm (slice f g.1 g.2)).isSome) ∧
    (∀ idx : Nat, ∀ e ∈ (decode tm lm beam f).getD idx [],
      ReachableState tm lm f e.1) := by
  constructor
  · intro s hs
    induction hs with
    | init =>
      intro g hg
      exact Option.noConfusion hg
    | step hr hmem ih =>
      intro g hg
      exact (extend_gap_targets hmem g hg).2.2
  · intro idx e he
    obtain ⟨⟨hstate, _, _, _⟩, hhok⟩ :=
      (decode_invariant tm lm beam f).1 idx e he
    rw [← hstate]
    exact HypOK_reachable hhok

theorem gap_lookup_safe_witness :
    (TM.find tmXYZ (slice fXYZ 0 1)).isSome :=
  (gap_lookup_safe tmXYZ lmU 5 fXYZ).1 _
    (ReachableState.step ReachableState.init
      (by decide :
        ((⟨2, some (0, 1), ()⟩ : state Unit), (-6 : ℤ), (⟨"Y", -5⟩ : Phrase ℤ)) ∈
          extend_state tmXYZ lmU (initial_state lmU) fXYZ))
    (0, 1) rfl

/-- C10: decoding the empty sentence terminates with a single stack
holding only the root hypothesis, no stack is expanded, the winner is the
root, the reconstructed translation is the empty string and the total
cumulative logprob is zero. -/
theorem empty_sentence_decode {Ctx W : Type} [LinearOrder W] [AddCommMonoid W]
    [DecidableEq Ctx] (tm : TM W) (lm : LM Ctx W) (beam : Nat) :
    decode tm lm beam ([] : List String) =
      [[(initial_state lm, rootHyp lm)]] ∧
    winner (decode tm lm beam ([] : List String)) = some (rootHyp lm) ∧
    (winner (decode tm lm beam ([] : List String))).map extract_english =
      some "" ∧
    (winner (decode tm lm beam ([] : List String))).map hypothesis.logprob =
      some 0 :=
  ⟨rfl, rfl, rfl, rfl⟩

end Part2
